import Mathlib

/-!
# Verification of the task-sync reconciliation skeleton

Shallow embedding of `src/main.py`.

* Python `datetime` values are modelled as abstract timestamps (`Nat`); the
  program never inspects their components, it only compares tasks and calls
  `isoformat()` when serializing.
* A `Task` carries the constructor fields `task_id`, `name`, `completed`,
  `due_date`.  Although the constructor is annotated `due_date: datetime`,
  Python does not enforce the annotation and `None` can be passed, so the
  model uses `Option DateTime`; `to_dict` on a `None` due date raises
  (`None.isoformat()` is an `AttributeError`), modelled as `none`.
* A `MockTaskService`'s mutable state is its task list (`List Task`); the
  service name only feeds logging, which is I/O and not modelled.
* Python `dict` comprehensions (`{t.task_id: t for t in tasks}`) are modelled
  by `taskDict`: insertion preserves first-occurrence key order and a later
  value for the same key overwrites the earlier one.
* `sync_tasks` is modelled as a function from the two service states to the
  final pair of states plus the trace of remote operations it issued, with
  `none` for an escaped exception.
-/

namespace TaskSync

/-- Abstract timestamp standing for a Python `datetime` value. -/
abbrev DateTime := Nat

/-- The `Task` data class of `src/main.py` (fields in declaration order). -/
structure Task where
  task_id : String
  name : String
  completed : Bool
  due_date : Option DateTime
deriving DecidableEq

/-- Which of the two services an emitted operation targets. -/
inductive Target where
  | svc1
  | svc2
deriving DecidableEq

/-- A remote mutation issued during a sync run:
`service<tgt>.update_task(t)` or `service<tgt>.add_task(t)`. -/
inductive Op where
  | update (tgt : Target) (t : Task)
  | add (tgt : Target) (t : Task)
deriving DecidableEq

/-- The service an operation targets. -/
def Op.target : Op → Target
  | .update tgt _ => tgt
  | .add tgt _ => tgt

/-- The ids of the tasks in a service's list, in order. -/
def ids (tasks : List Task) : List String :=
  tasks.map Task.task_id

/-- `MockTaskService.update_task`: replace the first entry whose `task_id`
matches; if none matches, raise `SyncError` (modelled as `none`). -/
def update_task : List Task → Task → Option (List Task)
  | [], _ => none
  | e :: rest, task =>
    if e.task_id = task.task_id then some (task :: rest)
    else
      match update_task rest task with
      | none => none
      | some rest2 => some (e :: rest2)

/-- `MockTaskService.add_task`: unconditionally append. -/
def add_task (tasks : List Task) (task : Task) : List Task :=
  tasks ++ [task]

/-- Python `dict` assignment `m[k] = v`: overwrite in place if `k` is
present, otherwise append the new binding. -/
def dictInsert (m : List (String × Task)) (k : String) (v : Task) :
    List (String × Task) :=
  match m with
  | [] => [(k, v)]
  | (k0, v0) :: rest =>
    if k0 = k then (k, v) :: rest else (k0, v0) :: dictInsert rest k v

/-- The dict comprehension `{task.task_id: task for task in tasks}`. -/
def taskDict (tasks : List Task) : List (String × Task) :=
  tasks.foldl (fun m t => dictInsert m t.task_id t) []

/-- Python dict lookup `m[k]` (also `k in m` via `isSome`). -/
def dictGet? (m : List (String × Task)) (k : String) : Option Task :=
  match m with
  | [] => none
  | (k0, v0) :: rest => if k0 = k then some v0 else dictGet? rest k

/-- The keys of a modelled dict, in order. -/
def keys (m : List (String × Task)) : List String :=
  m.map Prod.fst

/-- The last task in the list carrying the given id, if any — the value a
Python dict comprehension associates to that key. -/
def lastOcc : List Task → String → Option Task
  | [], _ => none
  | t :: rest, k =>
    match lastOcc rest k with
    | some r => some r
    | none => if t.task_id = k then some t else none

/-- The `for task_id, task1 in tasks1.items()` loop body of `sync_tasks`:
`tasks2` is the dict built from `service2` before the loop, `pending` the
remaining items of `tasks1`, `s2` the current state of `service2`, `ops`
the operations issued so far.  `none` models an escaped exception. -/
def syncLoop (tasks2 : List (String × Task)) :
    List (String × Task) → List Task → List Op → Option (List Task × List Op)
  | [], s2, ops => some (s2, ops)
  | (task_id, task1) :: rest, s2, ops =>
    match dictGet? tasks2 task_id with
    | some task2 =>
      if task1.completed ≠ task2.completed then
        match update_task s2 task1 with
        | none => none
        | some s2' => syncLoop tasks2 rest s2' (ops ++ [Op.update Target.svc2 task1])
      else syncLoop tasks2 rest s2 ops
    | none => syncLoop tasks2 rest (add_task s2 task1) (ops ++ [Op.add Target.svc2 task1])

/-- `sync_tasks(service1, service2)`: build both dicts, run the loop, and
return the final states of both services together with the trace of remote
operations.  The function never calls a mutator of `service1`, so its state
is returned as received. -/
def sync_tasks (s1 s2 : List Task) : Option (List Task × List Task × List Op) :=
  match syncLoop (taskDict s2) (taskDict s1) s2 [] with
  | none => none
  | some (s2f, ops) => some (s1, s2f, ops)

/-- The operations a run of the loop issues, read off the two initial
dicts: an add for an id missing from `tasks2`, an update for a shared id
whose `completed` flags disagree, nothing otherwise. -/
def plannedOps (tasks2 : List (String × Task)) (pending : List (String × Task)) :
    List Op :=
  pending.filterMap (fun p =>
    match dictGet? tasks2 p.1 with
    | some t2 =>
      if p.2.completed ≠ t2.completed then some (Op.update Target.svc2 p.2) else none
    | none => some (Op.add Target.svc2 p.2))

/-! ## Basic facts about `lastOcc`, the dict model, and the service mutators -/

theorem ids_cons (t : Task) (rest : List Task) :
    ids (t :: rest) = t.task_id :: ids rest := rfl

theorem lastOcc_cons (t : Task) (rest : List Task) (k : String) :
    lastOcc (t :: rest) k =
      match lastOcc rest k with
      | some r => some r
      | none => if t.task_id = k then some t else none := rfl

theorem lastOcc_isSome_iff (l : List Task) (k : String) :
    (lastOcc l k).isSome ↔ k ∈ ids l := by
  induction l with
  | nil => simp [lastOcc, ids]
  | cons t rest ih =>
    rw [lastOcc_cons, ids_cons]
    cases h : lastOcc rest k with
    | some r =>
      rw [h] at ih
      simp only [Option.isSome_some, true_iff] at ih
      simp [ih]
    | none =>
      rw [h] at ih
      simp only [Option.isSome_none, false_iff] at ih
      rcases eq_or_ne t.task_id k with he | he
      · simp [he]
      · simp [he, ih, Ne.symm he]

theorem lastOcc_eq_none_of_not_mem {l : List Task} {k : String}
    (h : k ∉ ids l) : lastOcc l k = none := by
  cases hl : lastOcc l k with
  | none => rfl
  | some r =>
    exact absurd ((lastOcc_isSome_iff l k).1 (by simp [hl])) h

theorem mem_ids_of_lastOcc {l : List Task} {k : String} {t : Task}
    (h : lastOcc l k = some t) : k ∈ ids l :=
  (lastOcc_isSome_iff l k).1 (by simp [h])

theorem lastOcc_mem {l : List Task} {k : String} {t : Task}
    (h : lastOcc l k = some t) : t ∈ l ∧ t.task_id = k := by
  induction l with
  | nil => simp [lastOcc] at h
  | cons u rest ih =>
    rw [lastOcc_cons] at h
    cases hr : lastOcc rest k with
    | some r =>
      rw [hr] at h
      obtain rfl : r = t := by simpa using h
      obtain ⟨hm, hid⟩ := ih hr
      exact ⟨List.mem_cons_of_mem _ hm, hid⟩
    | none =>
      rw [hr] at h
      by_cases he : u.task_id = k
      · simp only [he, if_pos] at h
        obtain rfl : u = t := by simpa using h
        exact ⟨List.mem_cons_self _ _, he⟩
      · simp [he] at h

theorem lastOcc_of_nodup {l : List Task} {t : Task}
    (hn : (ids l).Nodup) (hm : t ∈ l) : lastOcc l t.task_id = some t := by
  induction l with
  | nil => simp at hm
  | cons u rest ih =>
    rw [ids_cons, List.nodup_cons] at hn
    rcases List.mem_cons.1 hm with rfl | hm'
    · rw [lastOcc_cons, lastOcc_eq_none_of_not_mem hn.1]
      simp
    · rw [lastOcc_cons, ih hn.2 hm']

theorem lastOcc_append_single (l : List Task) (t : Task) (k : String) :
    lastOcc (l ++ [t]) k = if t.task_id = k then some t else lastOcc l k := by
  induction l with
  | nil =>
    simp only [List.nil_append, lastOcc_cons, lastOcc]
  | cons u rest ih =>
    rw [List.cons_append, lastOcc_cons, ih, lastOcc_cons]
    by_cases he : t.task_id = k
    · simp [he]
    · simp only [he, if_neg, if_false]

theorem dictGet?_dictInsert (m : List (String × Task)) (k : String) (v : Task)
    (k' : String) :
    dictGet? (dictInsert m k v) k' = if k = k' then some v else dictGet? m k' := by
  induction m with
  | nil => simp [dictInsert, dictGet?]
  | cons p rest ih =>
    obtain ⟨k0, v0⟩ := p
    rw [dictInsert]
    by_cases h0 : k0 = k
    · subst h0
      by_cases h1 : k0 = k'
      · simp [dictGet?, h1]
      · simp [dictGet?, h1]
    · rw [if_neg h0]
      by_cases h1 : k0 = k'
      · subst h1
        have hk : ¬ k = k0 := fun h => h0 h.symm
        simp [dictGet?, ih, hk]
      · simp [dictGet?, h1, ih]

theorem dictGet?_foldl (l : List Task) :
    ∀ (m : List (String × Task)) (k : String),
      dictGet? (l.foldl (fun m t => dictInsert m t.task_id t) m) k =
        match lastOcc l k with
        | some r => some r
        | none => dictGet? m k := by
  induction l with
  | nil => intro m k; rfl
  | cons t rest ih =>
    intro m k
    rw [List.foldl_cons, ih, lastOcc_cons]
    cases h : lastOcc rest k with
    | some r => rfl
    | none =>
      rw [dictGet?_dictInsert]
      by_cases he : t.task_id = k
      · simp [he]
      · simp [he]

theorem dictGet?_taskDict (l : List Task) (k : String) :
    dictGet? (taskDict l) k = lastOcc l k := by
  rw [taskDict, dictGet?_foldl]
  cases h : lastOcc l k with
  | some r => rfl
  | none => rfl

theorem keys_cons (p : String × Task) (m : List (String × Task)) :
    keys (p :: m) = p.1 :: keys m := rfl

theorem keys_dictInsert (m : List (String × Task)) (k : String) (v : Task) :
    keys (dictInsert m k v) = if k ∈ keys m then keys m else keys m ++ [k] := by
  induction m with
  | nil => simp [dictInsert, keys]
  | cons p rest ih =>
    obtain ⟨k0, v0⟩ := p
    rw [dictInsert]
    by_cases h0 : k0 = k
    · subst h0
      rw [if_pos rfl, if_pos (by rw [keys_cons]; exact List.mem_cons_self _ _)]
      rw [keys_cons, keys_cons]
    · rw [if_neg h0, keys_cons, keys_cons, ih]
      by_cases h1 : k ∈ keys rest
      · have h2 : k ∈ k0 :: keys rest := List.mem_cons_of_mem _ h1
        rw [if_pos h1, if_pos h2]
      · have h2 : k ∉ k0 :: keys rest := by
          intro hc
          rcases List.mem_cons.1 hc with hc | hc
          · exact h0 hc.symm
          · exact h1 hc
        rw [if_neg h1, if_neg h2, List.cons_append]

theorem nodup_keys_dictInsert {m : List (String × Task)} (k : String) (v : Task)
    (hn : (keys m).Nodup) : (keys (dictInsert m k v)).Nodup := by
  rw [keys_dictInsert]
  by_cases h : k ∈ keys m
  · simpa [h]
  · rw [if_neg h, List.nodup_append]
    refine ⟨hn, List.nodup_singleton _, ?_⟩
    intro a ha hb
    obtain rfl : a = k := by simpa using hb
    exact h ha

theorem nodup_keys_foldl (l : List Task) :
    ∀ m : List (String × Task), (keys m).Nodup →
      (keys (l.foldl (fun m t => dictInsert m t.task_id t) m)).Nodup := by
  induction l with
  | nil => intro m hm; simpa using hm
  | cons t rest ih =>
    intro m hm
    rw [List.foldl_cons]
    exact ih _ (nodup_keys_dictInsert _ _ hm)

theorem nodup_keys_taskDict (l : List Task) : (keys (taskDict l)).Nodup :=
  nodup_keys_foldl l [] (by simp [keys])

theorem mem_dictInsert {m : List (String × Task)} {k : String} {v : Task}
    {p : String × Task} (h : p ∈ dictInsert m k v) : p = (k, v) ∨ p ∈ m := by
  induction m with
  | nil => simpa [dictInsert] using h
  | cons q rest ih =>
    obtain ⟨k0, v0⟩ := q
    rw [dictInsert] at h
    by_cases h0 : k0 = k
    · rw [if_pos h0] at h
      rcases List.mem_cons.1 h with rfl | hm
      · exact Or.inl rfl
      · exact Or.inr (List.mem_cons_of_mem _ hm)
    · rw [if_neg h0] at h
      rcases List.mem_cons.1 h with rfl | hm
      · exact Or.inr (List.mem_cons_self _ _)
      · rcases ih hm with h' | h'
        · exact Or.inl h'
        · exact Or.inr (List.mem_cons_of_mem _ h')

theorem taskDict_pair (l : List Task) :
    ∀ p ∈ taskDict l, p.2.task_id = p.1 := by
  have main : ∀ (l : List Task) (m : List (String × Task)),
      (∀ p ∈ m, p.2.task_id = p.1) →
      ∀ p ∈ l.foldl (fun m t => dictInsert m t.task_id t) m, p.2.task_id = p.1 := by
    intro l
    induction l with
    | nil => intro m hm; simpa using hm
    | cons t rest ih =>
      intro m hm
      rw [List.foldl_cons]
      refine ih _ ?_
      intro p hp
      rcases mem_dictInsert hp with rfl | hp'
      · rfl
      · exact hm p hp'
  exact main l [] (by simp)

theorem mem_of_dictGet? {m : List (String × Task)} {k : String} {v : Task}
    (h : dictGet? m k = some v) : (k, v) ∈ m := by
  induction m with
  | nil => simp [dictGet?] at h
  | cons p rest ih =>
    obtain ⟨k0, v0⟩ := p
    rw [dictGet?] at h
    by_cases h0 : k0 = k
    · subst h0
      obtain rfl : v0 = v := by simpa using h
      exact List.mem_cons_self _ _
    · rw [if_neg h0] at h
      exact List.mem_cons_of_mem _ (ih h)

theorem dictGet?_of_mem {m : List (String × Task)} {k : String} {v : Task}
    (hn : (keys m).Nodup) (h : (k, v) ∈ m) : dictGet? m k = some v := by
  induction m with
  | nil => simp at h
  | cons p rest ih =>
    obtain ⟨k0, v0⟩ := p
    rw [keys, List.map_cons, List.nodup_cons] at hn
    rcases List.mem_cons.1 h with heq | hm
    · obtain ⟨rfl, rfl⟩ : k0 = k ∧ v0 = v := by
        constructor <;> · injection heq with h1 h2; simp_all
      simp [dictGet?]
    · have hk : k ∈ keys rest := List.mem_map.2 ⟨(k, v), hm, rfl⟩
      have h0 : k0 ≠ k := fun he => hn.1 (he ▸ hk)
      rw [dictGet?, if_neg h0]
      exact ih hn.2 hm

theorem mem_taskDict_of_mem {l : List Task} {t : Task}
    (hn : (ids l).Nodup) (hm : t ∈ l) : (t.task_id, t) ∈ taskDict l :=
  mem_of_dictGet? (by rw [dictGet?_taskDict]; exact lastOcc_of_nodup hn hm)

theorem update_task_ids {l : List Task} {t : Task} {l' : List Task}
    (h : update_task l t = some l') : ids l' = ids l := by
  induction l generalizing l' with
  | nil => simp [update_task] at h
  | cons e rest ih =>
    rw [update_task] at h
    by_cases he : e.task_id = t.task_id
    · rw [if_pos he] at h
      obtain rfl : t :: rest = l' := by simpa using h
      simp [ids_cons, he]
    · rw [if_neg he] at h
      cases hr : update_task rest t with
      | none => rw [hr] at h; simp at h
      | some rest2 =>
        rw [hr] at h
        obtain rfl : e :: rest2 = l' := by simpa using h
        rw [ids_cons, ids_cons, ih hr]

theorem update_task_eq_none_iff (l : List Task) (t : Task) :
    update_task l t = none ↔ t.task_id ∉ ids l := by
  induction l with
  | nil => simp [update_task, ids]
  | cons e rest ih =>
    rw [update_task, ids_cons]
    by_cases he : e.task_id = t.task_id
    · simp [he]
    · rw [if_neg he]
      have he' : t.task_id ≠ e.task_id := fun h => he h.symm
      cases hr : update_task rest t with
      | none =>
        rw [hr] at ih
        simp only [true_iff] at ih
        simp [ih, he']
      | some rest2 =>
        rw [hr] at ih
        simp only [false_iff, not_not, reduceCtorEq] at ih
        simp [ih]

theorem update_task_isSome {l : List Task} {t : Task}
    (h : t.task_id ∈ ids l) : ∃ l', update_task l t = some l' := by
  cases hu : update_task l t with
  | none => exact absurd ((update_task_eq_none_iff l t).1 hu) (by simpa using h)
  | some l' => exact ⟨l', rfl⟩

theorem update_task_lastOcc {l : List Task} {t : Task} {l' : List Task}
    (hn : (ids l).Nodup) (h : update_task l t = some l') :
    lastOcc l' t.task_id = some t ∧
      ∀ k, k ≠ t.task_id → lastOcc l' k = lastOcc l k := by
  induction l generalizing l' with
  | nil => simp [update_task] at h
  | cons e rest ih =>
    rw [ids_cons, List.nodup_cons] at hn
    rw [update_task] at h
    by_cases he : e.task_id = t.task_id
    · rw [if_pos he] at h
      obtain rfl : t :: rest = l' := by simpa using h
      constructor
      · rw [lastOcc_cons, lastOcc_eq_none_of_not_mem (he ▸ hn.1)]
        simp
      · intro k hk
        rw [lastOcc_cons, lastOcc_cons]
        cases lastOcc rest k with
        | some r => rfl
        | none => simp [he, Ne.symm hk, hk.symm]
    · rw [if_neg he] at h
      cases hr : update_task rest t with
      | none => rw [hr] at h; simp at h
      | some rest2 =>
        rw [hr] at h
        obtain rfl : e :: rest2 = l' := by simpa using h
        obtain ⟨ih1, ih2⟩ := ih hn.2 hr
        constructor
        · rw [lastOcc_cons, ih1]
        · intro k hk
          rw [lastOcc_cons, lastOcc_cons, ih2 k hk]

theorem ids_add_task (l : List Task) (t : Task) :
    ids (add_task l t) = ids l ++ [t.task_id] := by
  simp [ids, add_task]

theorem lastOcc_add_task (l : List Task) (t : Task) (k : String) :
    lastOcc (add_task l t) k = if t.task_id = k then some t else lastOcc l k :=
  lastOcc_append_single l t k

/-! ## Behaviour of the sync loop -/

theorem syncLoop_nil (tasks2 : List (String × Task)) (s2 : List Task) (ops : List Op) :
    syncLoop tasks2 [] s2 ops = some (s2, ops) := rfl

theorem plannedOps_nil (tasks2 : List (String × Task)) :
    plannedOps tasks2 [] = [] := rfl

theorem plannedOps_cons_update {tasks2 : List (String × Task)} {k : String}
    {v t2 : Task} (rest : List (String × Task)) (hget : dictGet? tasks2 k = some t2)
    (hdiff : v.completed ≠ t2.completed) :
    plannedOps tasks2 ((k, v) :: rest) =
      Op.update Target.svc2 v :: plannedOps tasks2 rest := by
  rw [plannedOps, List.filterMap_cons]
  simp [hget, hdiff, plannedOps]

theorem plannedOps_cons_skip {tasks2 : List (String × Task)} {k : String}
    {v t2 : Task} (rest : List (String × Task)) (hget : dictGet? tasks2 k = some t2)
    (hdiff : ¬ v.completed ≠ t2.completed) :
    plannedOps tasks2 ((k, v) :: rest) = plannedOps tasks2 rest := by
  rw [plannedOps, List.filterMap_cons]
  simp [hget, hdiff, plannedOps]

theorem plannedOps_cons_add {tasks2 : List (String × Task)} {k : String}
    {v : Task} (rest : List (String × Task)) (hget : dictGet? tasks2 k = none) :
    plannedOps tasks2 ((k, v) :: rest) =
      Op.add Target.svc2 v :: plannedOps tasks2 rest := by
  rw [plannedOps, List.filterMap_cons]
  simp [hget, plannedOps]

/-- The loop always succeeds when every pending id that is present in the
`tasks2` dict is present in the current service-2 list, and it issues exactly
the operations read off the initial dicts (`plannedOps`), never shrinking the
set of ids of service 2 and ending with every pending id present. -/
theorem syncLoop_run (tasks2 : List (String × Task)) :
    ∀ (pending : List (String × Task)) (s2 : List Task) (ops : List Op),
      (∀ p ∈ pending, p.2.task_id = p.1) →
      (∀ p ∈ pending, (dictGet? tasks2 p.1).isSome → p.1 ∈ ids s2) →
      ∃ s2f, syncLoop tasks2 pending s2 ops =
          some (s2f, ops ++ plannedOps tasks2 pending) ∧
        (∀ k, k ∈ ids s2 → k ∈ ids s2f) ∧
        (∀ p ∈ pending, p.1 ∈ ids s2f) := by
  intro pending
  induction pending with
  | nil =>
    intro s2 ops _ _
    exact ⟨s2, by simp [syncLoop_nil, plannedOps_nil], fun k hk => hk, by simp⟩
  | cons p rest ih =>
    intro s2 ops hpair hmem
    obtain ⟨k0, t1⟩ := p
    have hk0 : t1.task_id = k0 := hpair _ (List.mem_cons_self _ _)
    have hpair' : ∀ p ∈ rest, p.2.task_id = p.1 :=
      fun p hp => hpair p (List.mem_cons_of_mem _ hp)
    cases hget : dictGet? tasks2 k0 with
    | some t2 =>
      by_cases hdiff : t1.completed ≠ t2.completed
      · have hin : t1.task_id ∈ ids s2 := by
          rw [hk0]
          exact hmem _ (List.mem_cons_self _ _) (by simp [hget])
        obtain ⟨s2', hs2'⟩ := update_task_isSome hin
        have hmem' : ∀ p ∈ rest, (dictGet? tasks2 p.1).isSome → p.1 ∈ ids s2' := by
          intro p hp hs
          rw [update_task_ids hs2']
          exact hmem p (List.mem_cons_of_mem _ hp) hs
        obtain ⟨s2f, hrun, hmono, hpend⟩ :=
          ih s2' (ops ++ [Op.update Target.svc2 t1]) hpair' hmem'
        refine ⟨s2f, ?_, ?_, ?_⟩
        · simp only [syncLoop, hget, if_pos hdiff, hs2', hrun,
            plannedOps_cons_update rest hget hdiff]
          simp
        · intro k hk
          exact hmono k (by rw [update_task_ids hs2']; exact hk)
        · intro p hp
          rcases List.mem_cons.1 hp with rfl | hp'
          · exact hmono _ (by rw [update_task_ids hs2']; exact hk0 ▸ hin)
          · exact hpend p hp'
      · have hmem' : ∀ p ∈ rest, (dictGet? tasks2 p.1).isSome → p.1 ∈ ids s2 :=
          fun p hp hs => hmem p (List.mem_cons_of_mem _ hp) hs
        obtain ⟨s2f, hrun, hmono, hpend⟩ := ih s2 ops hpair' hmem'
        refine ⟨s2f, ?_, hmono, ?_⟩
        · simp only [syncLoop, hget, if_neg hdiff, hrun,
            plannedOps_cons_skip rest hget hdiff]
        · intro p hp
          rcases List.mem_cons.1 hp with rfl | hp'
          · exact hmono _ (hmem _ (List.mem_cons_self _ _) (by simp [hget]))
          · exact hpend p hp'
    | none =>
      have hids : ids (add_task s2 t1) = ids s2 ++ [k0] := by
        rw [ids_add_task, hk0]
      have hmem' : ∀ p ∈ rest, (dictGet? tasks2 p.1).isSome →
          p.1 ∈ ids (add_task s2 t1) := by
        intro p hp hs
        rw [hids]
        exact List.mem_append_left _ (hmem p (List.mem_cons_of_mem _ hp) hs)
      obtain ⟨s2f, hrun, hmono, hpend⟩ :=
        ih (add_task s2 t1) (ops ++ [Op.add Target.svc2 t1]) hpair' hmem'
      refine ⟨s2f, ?_, ?_, ?_⟩
      · simp only [syncLoop, hget, hrun, plannedOps_cons_add rest hget]
        simp
      · intro k hk
        exact hmono k (by rw [hids]; exact List.mem_append_left _ hk)
      · intro p hp
        rcases List.mem_cons.1 hp with rfl | hp'
        · exact hmono _ (by rw [hids]; simp)
        · exact hpend p hp'

/-- State characterization of a completed loop run: service 2 keeps
pairwise-distinct ids, ids outside the pending keys keep their (last) task
unchanged, and every pending id ends with a task whose `completed` flag
matches the pending service-1 task's flag. -/
theorem syncLoop_state (tasks2 : List (String × Task)) :
    ∀ (pending : List (String × Task)) (s2 : List Task) (ops : List Op)
      (s2f : List Task) (opsf : List Op),
      syncLoop tasks2 pending s2 ops = some (s2f, opsf) →
      (∀ p ∈ pending, p.2.task_id = p.1) →
      (keys pending).Nodup →
      (ids s2).Nodup →
      (∀ p ∈ pending, dictGet? tasks2 p.1 = none → p.1 ∉ ids s2) →
      (∀ p ∈ pending, ∀ t2, dictGet? tasks2 p.1 = some t2 → lastOcc s2 p.1 = some t2) →
      (ids s2f).Nodup ∧
        (∀ k, k ∉ keys pending → lastOcc s2f k = lastOcc s2 k) ∧
        (∀ p ∈ pending, ∃ t2, lastOcc s2f p.1 = some t2 ∧ t2.completed = p.2.completed) := by
  intro pending
  induction pending with
  | nil =>
    intro s2 ops s2f opsf hrun _ _ hn2 _ _
    rw [syncLoop_nil] at hrun
    obtain ⟨rfl, rfl⟩ : s2 = s2f ∧ ops = opsf := by
      constructor <;> · injection hrun with h; simp_all
    exact ⟨hn2, fun k _ => rfl, by simp⟩
  | cons p rest ih =>
    intro s2 ops s2f opsf hrun hpair hnp hn2 hadd hsnap
    obtain ⟨k0, t1⟩ := p
    have hk0 : t1.task_id = k0 := hpair _ (List.mem_cons_self _ _)
    rw [keys_cons, List.nodup_cons] at hnp
    have hpair' : ∀ p ∈ rest, p.2.task_id = p.1 :=
      fun p hp => hpair p (List.mem_cons_of_mem _ hp)
    cases hget : dictGet? tasks2 k0 with
    | some t2 =>
      simp only [syncLoop, hget] at hrun
      by_cases hdiff : t1.completed ≠ t2.completed
      · rw [if_pos hdiff] at hrun
        cases hup : update_task s2 t1 with
        | none => simp [hup] at hrun
        | some s2' =>
          simp only [hup] at hrun
          obtain ⟨hfirst, hframe⟩ := update_task_lastOcc hn2 hup
          have hn2' : (ids s2').Nodup := by
            rw [update_task_ids hup]; exact hn2
          have hadd' : ∀ p ∈ rest, dictGet? tasks2 p.1 = none → p.1 ∉ ids s2' := by
            intro p hp hnone
            rw [update_task_ids hup]
            exact hadd p (List.mem_cons_of_mem _ hp) hnone
          have hsnap' : ∀ p ∈ rest, ∀ u, dictGet? tasks2 p.1 = some u →
              lastOcc s2' p.1 = some u := by
            intro p hp u hu
            have hne : p.1 ≠ t1.task_id := by
              rw [hk0]
              intro hc
              exact hnp.1 (hc ▸ (List.mem_map.2 ⟨p, hp, rfl⟩))
            rw [hframe p.1 hne]
            exact hsnap p (List.mem_cons_of_mem _ hp) u hu
          obtain ⟨hfn, hff, hfp⟩ :=
            ih s2' (ops ++ [Op.update Target.svc2 t1]) s2f opsf hrun hpair' hnp.2
              hn2' hadd' hsnap'
          refine ⟨hfn, ?_, ?_⟩
          · intro k hk
            have hk1 : k ∉ keys rest := fun hc => hk (List.mem_cons_of_mem _ hc)
            have hk2 : k ≠ t1.task_id := by
              rw [hk0]; exact fun hc => hk (hc ▸ List.mem_cons_self _ _)
            rw [hff k hk1, hframe k hk2]
          · intro p hp
            rcases List.mem_cons.1 hp with rfl | hp'
            · refine ⟨t1, ?_, rfl⟩
              have hstep : lastOcc s2f k0 = lastOcc s2' k0 := hff k0 hnp.1
              rw [hstep, ← hk0]
              exact hfirst
            · exact hfp p hp'
      · rw [if_neg hdiff] at hrun
        have hcomp : t1.completed = t2.completed := not_ne_iff.1 hdiff
        have hadd' : ∀ p ∈ rest, dictGet? tasks2 p.1 = none → p.1 ∉ ids s2 :=
          fun p hp hnone => hadd p (List.mem_cons_of_mem _ hp) hnone
        have hsnap' : ∀ p ∈ rest, ∀ u, dictGet? tasks2 p.1 = some u →
            lastOcc s2 p.1 = some u :=
          fun p hp u hu => hsnap p (List.mem_cons_of_mem _ hp) u hu
        obtain ⟨hfn, hff, hfp⟩ :=
          ih s2 ops s2f opsf hrun hpair' hnp.2 hn2 hadd' hsnap'
        refine ⟨hfn, ?_, ?_⟩
        · intro k hk
          exact hff k (fun hc => hk (List.mem_cons_of_mem _ hc))
        · intro p hp
          rcases List.mem_cons.1 hp with rfl | hp'
          · refine ⟨t2, ?_, hcomp.symm⟩
            rw [hff k0 hnp.1]
            exact hsnap _ (List.mem_cons_self _ _) t2 hget
          · exact hfp p hp'
    | none =>
      simp only [syncLoop, hget] at hrun
      have hk0notin : k0 ∉ ids s2 := hadd _ (List.mem_cons_self _ _) hget
      have hids : ids (add_task s2 t1) = ids s2 ++ [k0] := by
        rw [ids_add_task, hk0]
      have hn2' : (ids (add_task s2 t1)).Nodup := by
        rw [hids, List.nodup_append]
        refine ⟨hn2, List.nodup_singleton _, ?_⟩
        intro a ha hb
        obtain rfl : a = k0 := by simpa using hb
        exact hk0notin ha
      have hadd' : ∀ p ∈ rest, dictGet? tasks2 p.1 = none →
          p.1 ∉ ids (add_task s2 t1) := by
        intro p hp hnone
        rw [hids]
        intro hc
        rcases List.mem_append.1 hc with hc | hc
        · exact hadd p (List.mem_cons_of_mem _ hp) hnone hc
        · obtain hpk : p.1 = k0 := by simpa using hc
          exact hnp.1 (hpk ▸ (List.mem_map.2 ⟨p, hp, rfl⟩))
      have hsnap' : ∀ p ∈ rest, ∀ u, dictGet? tasks2 p.1 = some u →
          lastOcc (add_task s2 t1) p.1 = some u := by
        intro p hp u hu
        rw [lastOcc_add_task]
        have hne : ¬ t1.task_id = p.1 := by
          rw [hk0]
          intro hc
          exact hnp.1 (hc ▸ (List.mem_map.2 ⟨p, hp, rfl⟩))
        rw [if_neg hne]
        exact hsnap p (List.mem_cons_of_mem _ hp) u hu
      obtain ⟨hfn, hff, hfp⟩ :=
        ih (add_task s2 t1) (ops ++ [Op.add Target.svc2 t1]) s2f opsf hrun hpair'
          hnp.2 hn2' hadd' hsnap'
      refine ⟨hfn, ?_, ?_⟩
      · intro k hk
        have hk1 : k ∉ keys rest := fun hc => hk (List.mem_cons_of_mem _ hc)
        have hk2 : ¬ t1.task_id = k := by
          rw [hk0]; exact fun hc => hk (hc ▸ List.mem_cons_self _ _)
        rw [hff k hk1, lastOcc_add_task, if_neg hk2]
      · intro p hp
        rcases List.mem_cons.1 hp with rfl | hp'
        · refine ⟨t1, ?_, rfl⟩
          rw [hff k0 hnp.1, lastOcc_add_task, if_pos hk0]
        · exact hfp p hp'

/-- If every pending id already has a dict entry with a matching `completed`
flag, the loop does nothing: no operation and no state change. -/
theorem syncLoop_noop (tasks2 : List (String × Task)) :
    ∀ (pending : List (String × Task)) (s2 : List Task) (ops : List Op),
      (∀ p ∈ pending, ∃ t2, dictGet? tasks2 p.1 = some t2 ∧
        t2.completed = p.2.completed) →
      syncLoop tasks2 pending s2 ops = some (s2, ops) := by
  intro pending
  induction pending with
  | nil => intro s2 ops _; rfl
  | cons p rest ih =>
    intro s2 ops hmatch
    obtain ⟨k0, t1⟩ := p
    obtain ⟨t2, hget, hcomp⟩ := hmatch _ (List.mem_cons_self _ _)
    have hget' : dictGet? tasks2 k0 = some t2 := hget
    have hcomp' : t2.completed = t1.completed := hcomp
    simp only [syncLoop, hget', if_neg (not_ne_iff.2 hcomp'.symm)]
    exact ih s2 ops (fun p hp => hmatch p (List.mem_cons_of_mem _ hp))

/-! ## Top-level behaviour of `sync_tasks` -/

/-- A run of `sync_tasks` always succeeds: no exception escapes, service 1 is
returned untouched, the trace is exactly `plannedOps` of the two initial
dicts, service 2 keeps all its ids and ends up containing every service-1
id. -/
theorem sync_tasks_run (s1 s2 : List Task) :
    ∃ s2f, sync_tasks s1 s2 =
        some (s1, s2f, plannedOps (taskDict s2) (taskDict s1)) ∧
      (∀ k, k ∈ ids s2 → k ∈ ids s2f) ∧
      (∀ p ∈ taskDict s1, p.1 ∈ ids s2f) := by
  have hpair := taskDict_pair s1
  have hmem : ∀ p ∈ taskDict s1, (dictGet? (taskDict s2) p.1).isSome →
      p.1 ∈ ids s2 := by
    intro p _ hs
    rw [dictGet?_taskDict] at hs
    exact (lastOcc_isSome_iff s2 p.1).1 hs
  obtain ⟨s2f, hrun, hmono, hpend⟩ :=
    syncLoop_run (taskDict s2) (taskDict s1) s2 [] hpair hmem
  refine ⟨s2f, ?_, hmono, hpend⟩
  simp only [sync_tasks, hrun, List.nil_append]

/-- State characterization of a successful `sync_tasks` run, assuming the
ids of service 2 are pairwise distinct. -/
theorem sync_tasks_state {s1 s2 s1f s2f : List Task} {ops : List Op}
    (hrun : sync_tasks s1 s2 = some (s1f, s2f, ops))
    (hn2 : (ids s2).Nodup) :
    s1f = s1 ∧ (ids s2f).Nodup ∧
      (∀ p ∈ taskDict s1, ∃ t2, lastOcc s2f p.1 = some t2 ∧
        t2.completed = p.2.completed) ∧
      (∀ k, k ∉ keys (taskDict s1) → lastOcc s2f k = lastOcc s2 k) := by
  rw [sync_tasks] at hrun
  cases hloop : syncLoop (taskDict s2) (taskDict s1) s2 [] with
  | none => rw [hloop] at hrun; simp at hrun
  | some sf =>
    obtain ⟨s2f', ops'⟩ := sf
    simp only [hloop, Option.some.injEq, Prod.mk.injEq] at hrun
    obtain ⟨rfl, rfl, rfl⟩ := hrun
    have hadd : ∀ p ∈ taskDict s1, dictGet? (taskDict s2) p.1 = none →
        p.1 ∉ ids s2 := by
      intro p _ hnone hc
      have hs := (lastOcc_isSome_iff s2 p.1).2 hc
      rw [dictGet?_taskDict] at hnone
      simp [hnone] at hs
    have hsnap : ∀ p ∈ taskDict s1, ∀ t2,
        dictGet? (taskDict s2) p.1 = some t2 → lastOcc s2 p.1 = some t2 := by
      intro p _ t2 ht2
      rw [dictGet?_taskDict] at ht2
      exact ht2
    obtain ⟨hfn, hff, hfp⟩ :=
      syncLoop_state (taskDict s2) (taskDict s1) s2 [] _ _ hloop
        (taskDict_pair s1) (nodup_keys_taskDict s1) hn2 hadd hsnap
    exact ⟨rfl, hfn, hfp, hff⟩

/-! ## Counting the operations in a planned trace -/

theorem plannedOps_target (tasks2 pending : List (String × Task)) :
    ∀ op ∈ plannedOps tasks2 pending, op.target = Target.svc2 := by
  intro op hop
  rw [plannedOps] at hop
  obtain ⟨p, _, he⟩ := List.mem_filterMap.1 hop
  cases hget : dictGet? tasks2 p.1 with
  | some t2 =>
    simp only [hget] at he
    by_cases hdiff : p.2.completed ≠ t2.completed
    · rw [if_pos hdiff] at he
      obtain rfl : Op.update Target.svc2 p.2 = op := by simpa using he
      rfl
    · rw [if_neg hdiff] at he
      simp at he
  | none =>
    simp only [hget] at he
    obtain rfl : Op.add Target.svc2 p.2 = op := by simpa using he
    rfl

theorem count_plannedOps_update_zero (tasks2 : List (String × Task)) :
    ∀ (pending : List (String × Task)) (v : Task),
      (∀ p ∈ pending, p.2.task_id ≠ v.task_id) →
      (plannedOps tasks2 pending).count (Op.update Target.svc2 v) = 0 := by
  intro pending
  induction pending with
  | nil => intro v _; rfl
  | cons p rest ih =>
    intro v hne
    obtain ⟨k0, t1⟩ := p
    have hne0 : t1.task_id ≠ v.task_id := hne _ (List.mem_cons_self _ _)
    have hrest := ih v (fun p hp => hne p (List.mem_cons_of_mem _ hp))
    have hvt : ¬ v = t1 := fun hc => hne0 (by rw [hc])
    have htv : ¬ t1 = v := fun hc => hvt hc.symm
    cases hget : dictGet? tasks2 k0 with
    | some t2 =>
      by_cases hdiff : t1.completed ≠ t2.completed
      · rw [plannedOps_cons_update rest hget hdiff, List.count_cons]
        simp [hrest, hvt, htv]
      · rw [plannedOps_cons_skip rest hget hdiff]
        exact hrest
    | none =>
      rw [plannedOps_cons_add rest hget, List.count_cons]
      simp [hrest]

theorem count_plannedOps_add_zero (tasks2 : List (String × Task)) :
    ∀ (pending : List (String × Task)) (v : Task),
      (∀ p ∈ pending, p.2.task_id ≠ v.task_id) →
      (plannedOps tasks2 pending).count (Op.add Target.svc2 v) = 0 := by
  intro pending
  induction pending with
  | nil => intro v _; rfl
  | cons p rest ih =>
    intro v hne
    obtain ⟨k0, t1⟩ := p
    have hne0 : t1.task_id ≠ v.task_id := hne _ (List.mem_cons_self _ _)
    have hrest := ih v (fun p hp => hne p (List.mem_cons_of_mem _ hp))
    have hvt : ¬ v = t1 := fun hc => hne0 (by rw [hc])
    have htv : ¬ t1 = v := fun hc => hvt hc.symm
    cases hget : dictGet? tasks2 k0 with
    | some t2 =>
      by_cases hdiff : t1.completed ≠ t2.completed
      · rw [plannedOps_cons_update rest hget hdiff, List.count_cons]
        simp [hrest]
      · rw [plannedOps_cons_skip rest hget hdiff]
        exact hrest
    | none =>
      rw [plannedOps_cons_add rest hget, List.count_cons]
      simp [hrest, hvt, htv]

/-- For a pending entry whose id the second dict knows, the trace holds
exactly one update of the service-1 task when the `completed` flags differ,
and none otherwise. -/
theorem count_plannedOps_update (tasks2 : List (String × Task)) :
    ∀ (pending : List (String × Task)) (kp : String) (vp t2 : Task),
      (∀ q ∈ pending, q.2.task_id = q.1) →
      (keys pending).Nodup →
      (kp, vp) ∈ pending →
      dictGet? tasks2 kp = some t2 →
      (plannedOps tasks2 pending).count (Op.update Target.svc2 vp)
        = if vp.completed ≠ t2.completed then 1 else 0 := by
  intro pending
  induction pending with
  | nil => intro kp vp t2 _ _ hp _; simp at hp
  | cons q rest ih =>
    intro kp vp t2 hpair hnp hp hget
    obtain ⟨k0, t1⟩ := q
    rw [keys_cons, List.nodup_cons] at hnp
    have hk1 : t1.task_id = k0 := hpair _ (List.mem_cons_self _ _)
    rcases List.mem_cons.1 hp with heq | hp'
    · obtain ⟨rfl, rfl⟩ := Prod.mk.inj heq
      have hzero : (plannedOps tasks2 rest).count (Op.update Target.svc2 vp) = 0 := by
        apply count_plannedOps_update_zero
        intro r hr
        rw [hpair r (List.mem_cons_of_mem _ hr), hk1]
        exact fun hc => hnp.1 (hc ▸ List.mem_map.2 ⟨r, hr, rfl⟩)
      by_cases hdiff : vp.completed ≠ t2.completed
      · rw [plannedOps_cons_update rest hget hdiff, if_pos hdiff, List.count_cons]
        simp [hzero]
      · rw [plannedOps_cons_skip rest hget hdiff, if_neg hdiff]
        exact hzero
    · have hpk : kp ≠ k0 := by
        intro hc
        exact hnp.1 (hc ▸ List.mem_map.2 ⟨(kp, vp), hp', rfl⟩)
      have hvp : vp.task_id = kp := hpair _ (List.mem_cons_of_mem _ hp')
      have hvt : ¬ vp = t1 := by
        intro hc
        rw [hc, hk1] at hvp
        exact hpk hvp.symm
      have htv : ¬ t1 = vp := fun hc => hvt hc.symm
      have hrec := ih kp vp t2 (fun q hq => hpair q (List.mem_cons_of_mem _ hq))
        hnp.2 hp' hget
      cases hget0 : dictGet? tasks2 k0 with
      | some u =>
        by_cases hdiff0 : t1.completed ≠ u.completed
        · rw [plannedOps_cons_update rest hget0 hdiff0, List.count_cons]
          simp [hrec, hvt, htv]
        · rw [plannedOps_cons_skip rest hget0 hdiff0]
          exact hrec
      | none =>
        rw [plannedOps_cons_add rest hget0, List.count_cons]
        simp [hrec]

/-- For a pending entry whose id the second dict does not know, the trace
holds exactly one add of the service-1 task. -/
theorem count_plannedOps_add (tasks2 : List (String × Task)) :
    ∀ (pending : List (String × Task)) (kp : String) (vp : Task),
      (∀ q ∈ pending, q.2.task_id = q.1) →
      (keys pending).Nodup →
      (kp, vp) ∈ pending →
      dictGet? tasks2 kp = none →
      (plannedOps tasks2 pending).count (Op.add Target.svc2 vp) = 1 := by
  intro pending
  induction pending with
  | nil => intro kp vp _ _ hp _; simp at hp
  | cons q rest ih =>
    intro kp vp hpair hnp hp hget
    obtain ⟨k0, t1⟩ := q
    rw [keys_cons, List.nodup_cons] at hnp
    have hk1 : t1.task_id = k0 := hpair _ (List.mem_cons_self _ _)
    rcases List.mem_cons.1 hp with heq | hp'
    · obtain ⟨rfl, rfl⟩ := Prod.mk.inj heq
      have hzero : (plannedOps tasks2 rest).count (Op.add Target.svc2 vp) = 0 := by
        apply count_plannedOps_add_zero
        intro r hr
        rw [hpair r (List.mem_cons_of_mem _ hr), hk1]
        exact fun hc => hnp.1 (hc ▸ List.mem_map.2 ⟨r, hr, rfl⟩)
      rw [plannedOps_cons_add rest hget, List.count_cons]
      simp [hzero]
    · have hpk : kp ≠ k0 := by
        intro hc
        exact hnp.1 (hc ▸ List.mem_map.2 ⟨(kp, vp), hp', rfl⟩)
      have hvp : vp.task_id = kp := hpair _ (List.mem_cons_of_mem _ hp')
      have hvt : ¬ vp = t1 := by
        intro hc
        rw [hc, hk1] at hvp
        exact hpk hvp.symm
      have htv : ¬ t1 = vp := fun hc => hvt hc.symm
      have hrec := ih kp vp (fun q hq => hpair q (List.mem_cons_of_mem _ hq))
        hnp.2 hp' hget
      cases hget0 : dictGet? tasks2 k0 with
      | some u =>
        by_cases hdiff0 : t1.completed ≠ u.completed
        · rw [plannedOps_cons_update rest hget0 hdiff0, List.count_cons]
          simp [hrec]
        · rw [plannedOps_cons_skip rest hget0 hdiff0]
          exact hrec
      | none =>
        rw [plannedOps_cons_add rest hget0, List.count_cons]
        simp [hrec, hvt, htv]

/-! ## Serialization: `Task.to_dict` and its spec-side inverse -/

/-- The decimal digit character for `n < 10`. -/
def digitChar (n : Nat) : Char := Char.ofNat (48 + n)

/-- Little-endian decimal digits of `n`, with an explicit structural bound
`b` (the result is meaningful whenever `n ≤ b`). -/
def digitsRevB : Nat → Nat → List Char
  | 0, n => [digitChar n]
  | b + 1, n =>
    if n < 10 then [digitChar n]
    else digitChar (n % 10) :: digitsRevB b (n / 10)

/-- `datetime.isoformat()` on the abstract timestamp: an injective decimal
rendering of the timestamp into a string. -/
def isoformat (n : DateTime) : String := String.mk (digitsRevB n n).reverse

/-- Big-endian decimal parse of a character list, failing on a non-digit. -/
def parseDigits (cs : List Char) : Option Nat :=
  cs.foldl
    (fun acc c =>
      match acc with
      | none => none
      | some n =>
        if 48 ≤ c.toNat ∧ c.toNat ≤ 57 then some (10 * n + (c.toNat - 48))
        else none)
    (some 0)

/-- Modelled from the spec: the timestamp reading of an ISO-8601 serialized
due date (`dueDate(ISO-8601)` in the persisted-state layout).  The
repository has no deserializer of its own; the spec requires serialization
to be lossless and round-trip. -/
def fromisoformat (s : String) : Option DateTime :=
  if s.data = [] then none else parseDigits s.data

/-- The dictionary produced by `Task.to_dict` (keys in insertion order). -/
structure TaskDict where
  task_id : String
  name : String
  completed : Bool
  due_date : String
deriving DecidableEq

/-- `Task.to_dict`: serialize the four fields, calling `isoformat()` on the
due date.  A `None` due date raises `AttributeError` (`None` has no
`isoformat`), modelled as `none`. -/
def to_dict (t : Task) : Option TaskDict :=
  match t.due_date with
  | none => none
  | some d => some ⟨t.task_id, t.name, t.completed, isoformat d⟩

/-- Modelled from the spec: deserialization of a `to_dict` dictionary back
into a `Task`; the spec requires `Task → serialized → Task` to be the
identity on the four fields, and the source has no `from_dict` of its own. -/
def from_dict (d : TaskDict) : Option Task :=
  match fromisoformat d.due_date with
  | none => none
  | some dt => some ⟨d.task_id, d.name, d.completed, some dt⟩

theorem digitChar_toNat : ∀ m, m < 10 → (digitChar m).toNat = 48 + m := by
  decide

theorem parseDigits_append (cs : List Char) (c : Char) (n : Nat)
    (h : parseDigits cs = some n) (hc : 48 ≤ c.toNat ∧ c.toNat ≤ 57) :
    parseDigits (cs ++ [c]) = some (10 * n + (c.toNat - 48)) := by
  rw [parseDigits] at h ⊢
  rw [List.foldl_append, h]
  simp [List.foldl, hc]

theorem digitsRevB_ne_nil (b n : Nat) : digitsRevB b n ≠ [] := by
  cases b with
  | zero => simp [digitsRevB]
  | succ b =>
    rw [digitsRevB]
    by_cases h : n < 10
    · simp [h]
    · simp [h]

theorem parseDigits_digitsRevB :
    ∀ (b n : Nat), n ≤ b → parseDigits ((digitsRevB b n).reverse) = some n := by
  intro b
  induction b with
  | zero =>
    intro n hn
    obtain rfl : n = 0 := Nat.le_zero.1 hn
    decide
  | succ b ih =>
    intro n hn
    rw [digitsRevB]
    by_cases h10 : n < 10
    · rw [if_pos h10]
      have hsmall : ∀ m, m < 10 → parseDigits [digitChar m] = some m := by decide
      simpa using hsmall n h10
    · rw [if_neg h10]
      have hdiv : n / 10 ≤ b := by
        have h1 : 0 < n := by omega
        have h2 := Nat.div_lt_self h1 (by omega : 1 < 10)
        omega
      have hm : n % 10 < 10 := Nat.mod_lt _ (by omega)
      have hd : 48 ≤ (digitChar (n % 10)).toNat ∧ (digitChar (n % 10)).toNat ≤ 57 := by
        rw [digitChar_toNat _ hm]
        omega
      rw [List.reverse_cons, parseDigits_append _ _ _ (ih (n / 10) hdiv) hd,
        digitChar_toNat _ hm]
      congr 1
      omega

/-- The spec-modelled ISO parse inverts the modelled `isoformat`. -/
theorem fromisoformat_isoformat (n : DateTime) :
    fromisoformat (isoformat n) = some n := by
  have hmain := parseDigits_digitsRevB n n (Nat.le_refl n)
  have hne : (digitsRevB n n).reverse ≠ [] := by
    intro hc
    exact digitsRevB_ne_nil n n (List.reverse_eq_nil_iff.1 hc)
  rw [isoformat, fromisoformat]
  have hdata : (String.mk (digitsRevB n n).reverse).data = (digitsRevB n n).reverse := rfl
  rw [hdata, if_neg hne]
  exact hmain

/-- `update_task` replaces exactly the first entry carrying the target id. -/
theorem update_task_first (t : Task) :
    ∀ (l₁ : List Task) (e : Task) (l₂ : List Task),
      (∀ x ∈ l₁, x.task_id ≠ t.task_id) → e.task_id = t.task_id →
      update_task (l₁ ++ e :: l₂) t = some (l₁ ++ t :: l₂) := by
  intro l₁
  induction l₁ with
  | nil =>
    intro e l₂ _ he
    simp [update_task, he]
  | cons x rest ih =>
    intro e l₂ hfirst he
    have hx : x.task_id ≠ t.task_id := hfirst x (List.mem_cons_self _ _)
    have hr := ih e l₂ (fun y hy => hfirst y (List.mem_cons_of_mem _ hy)) he
    simp only [List.cons_append, update_task, if_neg hx, List.append_eq, hr]

/-! ## The claims -/

/-- C1: the spec's last-writer-wins scenario fails on the code.  A `Task`
has no `updatedAt` field at all, and `sync_tasks` unconditionally copies
service 1's state onto service 2 when the `completed` flags differ.  At the
scenario's input (`completed=false` in service 1, `completed=true` in
service 2, same id) the run ends with `completed = false` — service 1's
older value — on both sides, service 1 receives no operation, and the one
update targets service 2. -/
theorem C1_lww_scenario_code_result :
    sync_tasks [Task.mk "1" "T1" false (some 1)] [Task.mk "1" "T1" true (some 1)] =
      some ([Task.mk "1" "T1" false (some 1)], [Task.mk "1" "T1" false (some 1)],
        [Op.update Target.svc2 (Task.mk "1" "T1" false (some 1))]) ∧
    (Task.mk "1" "T1" false (some 1)).completed = false := by
  decide

/-- C2 (counterexample): two services share id `"1"` with equal `completed`
but different titles; the claim's hypothesis is satisfiable with a single
one-sided title edit (no conflicting concurrent edits), yet `sync_tasks`
succeeds issuing no operation and leaves the two tasks content-unequal. -/
theorem C2_counterexample :
    sync_tasks [Task.mk "1" "Alpha" false (some 1)] [Task.mk "1" "Beta" false (some 1)] =
      some ([Task.mk "1" "Alpha" false (some 1)], [Task.mk "1" "Beta" false (some 1)], []) ∧
    (Task.mk "1" "Alpha" false (some 1)).task_id = (Task.mk "1" "Beta" false (some 1)).task_id ∧
    (Task.mk "1" "Alpha" false (some 1)).name ≠ (Task.mk "1" "Beta" false (some 1)).name := by
  decide

/-- C2 (amended): after a successful `sync_tasks` run on services with
pairwise-distinct ids, tasks sharing an id in the two final states agree on
the `completed` field (full content equality of title and due date is not
established when the `completed` flags already matched). -/
theorem C2_sync_completed_agreement {s1 s2 s1f s2f : List Task} {ops : List Op}
    (hn1 : (ids s1).Nodup) (hn2 : (ids s2).Nodup)
    (hrun : sync_tasks s1 s2 = some (s1f, s2f, ops)) :
    ∀ t1 ∈ s1f, ∀ t2 ∈ s2f, t1.task_id = t2.task_id → t1.completed = t2.completed := by
  obtain ⟨h1, hfn, hfp, _⟩ := sync_tasks_state hrun hn2
  subst h1
  intro t1 ht1 t2 ht2 hid
  have hmem1 : (t1.task_id, t1) ∈ taskDict s1f := mem_taskDict_of_mem hn1 ht1
  obtain ⟨u, hu, hcomp⟩ := hfp _ hmem1
  have h2 : lastOcc s2f t2.task_id = some t2 := lastOcc_of_nodup hfn ht2
  rw [← hid, hu] at h2
  obtain rfl : u = t2 := by simpa using h2
  exact hcomp.symm

/-- C2 (witness). -/
theorem C2_sync_completed_agreement_witness :
    Task.completed (Task.mk "1" "A" false (some 1)) =
      Task.completed (Task.mk "1" "B" false (some 2)) :=
  @C2_sync_completed_agreement [Task.mk "1" "A" false (some 1)]
    [Task.mk "1" "B" false (some 2)] [Task.mk "1" "A" false (some 1)]
    [Task.mk "1" "B" false (some 2)] []
    (by decide) (by decide) (by decide)
    (Task.mk "1" "A" false (some 1)) (by decide)
    (Task.mk "1" "B" false (some 2)) (by decide) (by decide)

/-- C3: `sync_tasks` never mutates service 1 — the returned service-1 state
equals the input, and every operation of the trace targets service 2. -/
theorem C3_sync_frame_service1 {s1 s2 s1f s2f : List Task} {ops : List Op}
    (hrun : sync_tasks s1 s2 = some (s1f, s2f, ops)) :
    s1f = s1 ∧ ∀ op ∈ ops, op.target = Target.svc2 := by
  obtain ⟨s2f', hrun', _, _⟩ := sync_tasks_run s1 s2
  rw [hrun'] at hrun
  simp only [Option.some.injEq, Prod.mk.injEq] at hrun
  obtain ⟨rfl, rfl, rfl⟩ := hrun
  exact ⟨rfl, plannedOps_target _ _⟩

/-- C3 (witness): the frame theorem applied to a run that issues one update
to service 2, projected to the returned-service-1 equation and to that
operation's target. -/
theorem C3_sync_frame_service1_witness :
    [Task.mk "3" "C" false (some 1)] = [Task.mk "3" "C" false (some 1)] ∧
    Op.target (Op.update Target.svc2 (Task.mk "3" "C" false (some 1))) = Target.svc2 :=
  ⟨(@C3_sync_frame_service1 [Task.mk "3" "C" false (some 1)]
      [Task.mk "3" "D" true (some 1)] [Task.mk "3" "C" false (some 1)]
      [Task.mk "3" "C" false (some 1)]
      [Op.update Target.svc2 (Task.mk "3" "C" false (some 1))] (by decide)).1,
    (@C3_sync_frame_service1 [Task.mk "3" "C" false (some 1)]
      [Task.mk "3" "D" true (some 1)] [Task.mk "3" "C" false (some 1)]
      [Task.mk "3" "C" false (some 1)]
      [Op.update Target.svc2 (Task.mk "3" "C" false (some 1))] (by decide)).2
      (Op.update Target.svc2 (Task.mk "3" "C" false (some 1))) (by decide)⟩

/-- C4 (counterexample): with a duplicated id inside service 2 the second
run still issues an operation.  Service 2 holds two entries with id `"1"`;
the dict comprehension reads the last one while `update_task` rewrites the
first one, so the first run leaves the last entry stale and the immediately
repeated run issues the same update again. -/
theorem C4_counterexample :
    sync_tasks [Task.mk "1" "T" false (some 1)]
        [Task.mk "1" "X" true (some 1), Task.mk "1" "Y" true (some 1)] =
      some ([Task.mk "1" "T" false (some 1)],
        [Task.mk "1" "T" false (some 1), Task.mk "1" "Y" true (some 1)],
        [Op.update Target.svc2 (Task.mk "1" "T" false (some 1))]) ∧
    sync_tasks [Task.mk "1" "T" false (some 1)]
        [Task.mk "1" "T" false (some 1), Task.mk "1" "Y" true (some 1)] =
      some ([Task.mk "1" "T" false (some 1)],
        [Task.mk "1" "T" false (some 1), Task.mk "1" "Y" true (some 1)],
        [Op.update Target.svc2 (Task.mk "1" "T" false (some 1))]) ∧
    [Op.update Target.svc2 (Task.mk "1" "T" false (some 1))] ≠ ([] : List Op) := by
  decide

/-- C4 (amended): when service 2's ids are pairwise distinct, running
`sync_tasks` immediately again after a successful run, with no external
changes in between, performs zero remote operations. -/
theorem C4_sync_idempotent {s1 s2 s1a s2a s1b s2b : List Task} {ops1 ops2 : List Op}
    (hn2 : (ids s2).Nodup)
    (h1 : sync_tasks s1 s2 = some (s1a, s2a, ops1))
    (h2 : sync_tasks s1a s2a = some (s1b, s2b, ops2)) :
    ops2 = [] := by
  obtain ⟨h1s, _, hfp, _⟩ := sync_tasks_state h1 hn2
  subst h1s
  have hnoop : syncLoop (taskDict s2a) (taskDict s1a) s2a [] = some (s2a, []) := by
    apply syncLoop_noop
    intro p hp
    obtain ⟨t2, ht2, hc⟩ := hfp p hp
    exact ⟨t2, by rw [dictGet?_taskDict]; exact ht2, hc⟩
  simp only [sync_tasks, hnoop, Option.some.injEq, Prod.mk.injEq] at h2
  exact h2.2.2.symm

/-- C4 (witness). -/
theorem C4_sync_idempotent_witness : ([] : List Op) = [] :=
  @C4_sync_idempotent [Task.mk "4" "I" false (some 1)] [Task.mk "4" "J" true (some 1)]
    [Task.mk "4" "I" false (some 1)] [Task.mk "4" "I" false (some 1)]
    [Task.mk "4" "I" false (some 1)] [Task.mk "4" "I" false (some 1)]
    [Op.update Target.svc2 (Task.mk "4" "I" false (some 1))] []
    (by decide) (by decide) (by decide)

/-- C5 (counterexample): two tasks share id `"1"` and differ in due date
(content fields differ), yet `sync_tasks` issues no update, because the code
compares only the `completed` flags. -/
theorem C5_counterexample :
    sync_tasks [Task.mk "1" "T" false (some 1)] [Task.mk "1" "T" false (some 2)] =
      some ([Task.mk "1" "T" false (some 1)], [Task.mk "1" "T" false (some 2)], []) ∧
    (Task.mk "1" "T" false (some 1)).task_id = (Task.mk "1" "T" false (some 2)).task_id ∧
    (Task.mk "1" "T" false (some 1)).due_date ≠ (Task.mk "1" "T" false (some 2)).due_date := by
  decide

/-- C5 (amended): change detection compares only the `completed` field: for
tasks sharing an id across the two services (ids pairwise distinct within
each service), the trace holds exactly one update of the service-1 task when
the `completed` flags differ and none otherwise; title, due date and any
metadata are ignored. -/
theorem C5_change_detection_completed_only {s1 s2 s1f s2f : List Task}
    {ops : List Op} {t1 t2 : Task}
    (hn1 : (ids s1).Nodup) (hn2 : (ids s2).Nodup)
    (ht1 : t1 ∈ s1) (ht2 : t2 ∈ s2) (hid : t1.task_id = t2.task_id)
    (hrun : sync_tasks s1 s2 = some (s1f, s2f, ops)) :
    ops.count (Op.update Target.svc2 t1) =
      if t1.completed ≠ t2.completed then 1 else 0 := by
  obtain ⟨s2f', hrun', _, _⟩ := sync_tasks_run s1 s2
  rw [hrun'] at hrun
  simp only [Option.some.injEq, Prod.mk.injEq] at hrun
  obtain ⟨rfl, rfl, rfl⟩ := hrun
  have hm1 : (t1.task_id, t1) ∈ taskDict s1 := mem_taskDict_of_mem hn1 ht1
  have hget : dictGet? (taskDict s2) t1.task_id = some t2 := by
    rw [dictGet?_taskDict, hid]
    exact lastOcc_of_nodup hn2 ht2
  exact count_plannedOps_update (taskDict s2) (taskDict s1) t1.task_id t1 t2
    (taskDict_pair s1) (nodup_keys_taskDict s1) hm1 hget

/-- C5 (witness). -/
theorem C5_change_detection_completed_only_witness :
    List.count (Op.update Target.svc2 (Task.mk "5" "E" false (some 1)))
        [Op.update Target.svc2 (Task.mk "5" "E" false (some 1))] =
      if (Task.mk "5" "E" false (some 1)).completed ≠
          (Task.mk "5" "F" true (some 1)).completed then 1 else 0 :=
  @C5_change_detection_completed_only [Task.mk "5" "E" false (some 1)]
    [Task.mk "5" "F" true (some 1)] [Task.mk "5" "E" false (some 1)]
    [Task.mk "5" "E" false (some 1)]
    [Op.update Target.svc2 (Task.mk "5" "E" false (some 1))]
    (Task.mk "5" "E" false (some 1)) (Task.mk "5" "F" true (some 1))
    (by decide) (by decide) (by decide) (by decide) (by decide) (by decide)

/-- C6: for a service-1 task (ids pairwise distinct in service 1) whose id
is absent from service 2, a `sync_tasks` run issues exactly one add of that
task on service 2, and the final service-2 state contains the id. -/
theorem C6_create_missing {s1 s2 s1f s2f : List Task} {ops : List Op} {t : Task}
    (hn1 : (ids s1).Nodup) (ht : t ∈ s1) (habs : t.task_id ∉ ids s2)
    (hrun : sync_tasks s1 s2 = some (s1f, s2f, ops)) :
    ops.count (Op.add Target.svc2 t) = 1 ∧ t.task_id ∈ ids s2f := by
  obtain ⟨s2f', hrun', _, hpend⟩ := sync_tasks_run s1 s2
  rw [hrun'] at hrun
  simp only [Option.some.injEq, Prod.mk.injEq] at hrun
  obtain ⟨rfl, rfl, rfl⟩ := hrun
  have hmem : (t.task_id, t) ∈ taskDict s1 := mem_taskDict_of_mem hn1 ht
  have hget : dictGet? (taskDict s2) t.task_id = none := by
    rw [dictGet?_taskDict]
    exact lastOcc_eq_none_of_not_mem habs
  exact ⟨count_plannedOps_add (taskDict s2) (taskDict s1) t.task_id t
    (taskDict_pair s1) (nodup_keys_taskDict s1) hmem hget, hpend _ hmem⟩

/-- C6 (witness). -/
theorem C6_create_missing_witness :
    List.count (Op.add Target.svc2 (Task.mk "6" "New" false (some 1)))
        [Op.add Target.svc2 (Task.mk "6" "New" false (some 1))] = 1 ∧
    Task.task_id (Task.mk "6" "New" false (some 1)) ∈
      ids [Task.mk "6" "New" false (some 1)] :=
  @C6_create_missing [Task.mk "6" "New" false (some 1)] []
    [Task.mk "6" "New" false (some 1)] [Task.mk "6" "New" false (some 1)]
    [Op.add Target.svc2 (Task.mk "6" "New" false (some 1))]
    (Task.mk "6" "New" false (some 1))
    (by decide) (by decide) (by decide) (by decide)

/-- C7: `MockTaskService.update_task` raises (`none`) exactly when no entry
carries the target id — and then no modified list is produced, the state is
the unchanged input — and on success it replaces exactly the first entry
with that id, leaving every other entry in place. -/
theorem C7_update_task_contract (l : List Task) (t : Task) :
    (update_task l t = none ↔ t.task_id ∉ ids l) ∧
    (∀ l₁ e l₂, l = l₁ ++ e :: l₂ → (∀ x ∈ l₁, x.task_id ≠ t.task_id) →
      e.task_id = t.task_id → update_task l t = some (l₁ ++ t :: l₂)) := by
  refine ⟨update_task_eq_none_iff l t, ?_⟩
  intro l₁ e l₂ hl hfirst he
  subst hl
  exact update_task_first t l₁ e l₂ hfirst he

/-- C7 (witness). -/
theorem C7_update_task_contract_witness :
    update_task [Task.mk "1" "A" false (some 1), Task.mk "2" "B" false (some 1)]
        (Task.mk "2" "B2" true (some 2)) =
      some [Task.mk "1" "A" false (some 1), Task.mk "2" "B2" true (some 2)] :=
  (C7_update_task_contract
      [Task.mk "1" "A" false (some 1), Task.mk "2" "B" false (some 1)]
      (Task.mk "2" "B2" true (some 2))).2
    [Task.mk "1" "A" false (some 1)] (Task.mk "2" "B" false (some 1)) []
    (by decide) (by decide) (by decide)

/-- C8 (counterexample): for a task built with an absent (`None`) due date,
`to_dict` raises (`none`), so no serialize–deserialize round trip exists for
it; the claim fails for that task. -/
theorem C8_counterexample :
    to_dict (Task.mk "8" "NoDue" true none) = none ∧
    ¬ ∃ d, to_dict (Task.mk "8" "NoDue" true none) = some d ∧
      from_dict d = some (Task.mk "8" "NoDue" true none) := by
  refine ⟨rfl, ?_⟩
  rintro ⟨d, hd, _⟩
  simp [to_dict] at hd

/-- C8 (amended): for every task whose due date is present, `to_dict`
produces a dictionary and the spec-modelled deserialization maps it back to
a field-equal task (lossless in `task_id`, `name`, `completed`,
`due_date`). -/
theorem C8_round_trip {t : Task} {dt : DateTime} (h : t.due_date = some dt) :
    ∃ d, to_dict t = some d ∧ from_dict d = some t := by
  obtain ⟨tid, nm, c, dd⟩ := t
  have hdd : dd = some dt := h
  subst hdd
  refine ⟨⟨tid, nm, c, isoformat dt⟩, rfl, ?_⟩
  simp [from_dict, fromisoformat_isoformat]

/-- C8 (witness). -/
theorem C8_round_trip_witness :
    ∃ d, to_dict (Task.mk "1" "W" true (some 5)) = some d ∧
      from_dict d = some (Task.mk "1" "W" true (some 5)) :=
  @C8_round_trip (Task.mk "1" "W" true (some 5)) 5 rfl

/-- C9 (counterexample): `to_dict` on a task constructed with an absent
(`None`) due date raises (`None.isoformat()` is an `AttributeError`),
modelled as `none`: no dictionary is returned. -/
theorem C9_counterexample :
    to_dict (Task.mk "9" "NoDue" false none) = none ∧
    ¬ ∃ d, to_dict (Task.mk "9" "NoDue" false none) = some d := by
  refine ⟨rfl, ?_⟩
  rintro ⟨d, hd⟩
  simp [to_dict] at hd

/-- C9 (amended): `to_dict` returns a dictionary without error for every
task whose due date is present. -/
theorem C9_to_dict_total_on_some {t : Task} {dt : DateTime}
    (h : t.due_date = some dt) : ∃ d, to_dict t = some d := by
  obtain ⟨tid, nm, c, dd⟩ := t
  have hdd : dd = some dt := h
  subst hdd
  exact ⟨⟨tid, nm, c, isoformat dt⟩, rfl⟩

/-- C9 (witness). -/
theorem C9_to_dict_total_on_some_witness :
    ∃ d, to_dict (Task.mk "2" "W2" false (some 7)) = some d :=
  @C9_to_dict_total_on_some (Task.mk "2" "W2" false (some 7)) 7 rfl

/-- C10 (counterexample): `add_task` appends unconditionally, so adding a
task whose id is already present breaks the pairwise-distinct-ids invariant
of a service. -/
theorem C10_counterexample :
    (ids [Task.mk "1" "A" false (some 1)]).Nodup ∧
    ¬ (ids (add_task [Task.mk "1" "A" false (some 1)]
        (Task.mk "1" "B" true (some 2)))).Nodup := by
  decide

/-- C10 (amended): `update_task` and a full `sync_tasks` run preserve
pairwise-distinct ids on both services; `add_task` preserves them exactly
when the added task's id is not already present. -/
theorem C10_uniqueness_preservation :
    (∀ (l : List Task) (t : Task) (l2 : List Task), (ids l).Nodup →
      update_task l t = some l2 → (ids l2).Nodup) ∧
    (∀ (l : List Task) (t : Task), (ids l).Nodup → t.task_id ∉ ids l →
      (ids (add_task l t)).Nodup) ∧
    (∀ (s1 s2 s1f s2f : List Task) (ops : List Op),
      (ids s1).Nodup → (ids s2).Nodup →
      sync_tasks s1 s2 = some (s1f, s2f, ops) →
      (ids s1f).Nodup ∧ (ids s2f).Nodup) := by
  refine ⟨?_, ?_, ?_⟩
  · intro l t l2 hn hu
    rw [update_task_ids hu]
    exact hn
  · intro l t hn hni
    rw [ids_add_task, List.nodup_append]
    refine ⟨hn, List.nodup_singleton _, ?_⟩
    intro a ha hb
    obtain rfl : a = t.task_id := by simpa using hb
    exact hni ha
  · intro s1 s2 s1f s2f ops hn1 hn2 hrun
    obtain ⟨h1, hfn, _, _⟩ := sync_tasks_state hrun hn2
    constructor
    · rw [h1]; exact hn1
    · exact hfn

/-- C10 (witness). -/
theorem C10_uniqueness_preservation_witness :
    (ids [Task.mk "1" "A" false (some 1)]).Nodup ∧
    (ids [Task.mk "1" "A" false (some 1)]).Nodup :=
  C10_uniqueness_preservation.2.2 [Task.mk "1" "A" false (some 1)]
    [Task.mk "1" "B" true (some 1)] [Task.mk "1" "A" false (some 1)]
    [Task.mk "1" "A" false (some 1)]
    [Op.update Target.svc2 (Task.mk "1" "A" false (some 1))]
    (by decide) (by decide) (by decide)

end TaskSync
